import Mathlib

/-
  Verification development for the `led` line editor.

  The program under study is `src/led.c` (the self-contained C variant:
  command parser `cmd_process`, line buffer `buffer_*`, and the string /
  decimal helpers), together with `src/Page.cpp` (a later C++ variant
  providing `Page::file_read` and `Page::move_cursor`).

  Machine integers are modelled as `Nat` / `Int` with explicit reduction
  modulo `2 ^ 64` (for `size_t`) and modulo `2 ^ 32` (for the `long` to
  `int` conversion on the usual LP64 platform) at the points where the C
  code performs such conversions.  Signed `int` arithmetic inside
  `decimal_reverse` is modelled exactly (unbounded); the theorems below
  only ever exercise it on values where the C computation does not
  overflow, save where a theorem is explicitly about the wrap.
-/

/- ## Digit and string primitives (semantics of the libc calls used) -/

/-- Numeric value of one decimal digit character; non-digits map to 0
(they never reach `dval` in any run-valued position below). -/
def dval (c : Char) : Nat :=
  match c with
  | '0' => 0 | '1' => 1 | '2' => 2 | '3' => 3 | '4' => 4
  | '5' => 5 | '6' => 6 | '7' => 7 | '8' => 8 | '9' => 9
  | _ => 0

/-- Value of a decimal digit run, most significant digit first; this is the
accumulation loop that `strtol` performs on the digits it consumes. -/
def digitsVal (l : List Char) : Nat :=
  l.foldl (fun a c => a * 10 + dval c) 0

/-- The decimal digit character for `d < 10` (used to build tokens). -/
def digitChar (d : Nat) : Char :=
  match d with
  | 0 => '0' | 1 => '1' | 2 => '2' | 3 => '3' | 4 => '4'
  | 5 => '5' | 6 => '6' | 7 => '7' | 8 => '8' | _ => '9'

/-- Decimal digit string of `n`, most significant first; `fuel` bounds the
recursion depth (any `fuel ≥ n ≥ 1` yields the exact digit string). -/
def natDigitsGo (fuel n : Nat) : List Char :=
  match fuel with
  | 0 => []
  | f + 1 =>
    if n < 10 then [digitChar n]
    else natDigitsGo f (n / 10) ++ [digitChar (n % 10)]

/-- Decimal digit string of `n ≥ 1`, most significant digit first. -/
def natDigits (n : Nat) : List Char := natDigitsGo n n

/-- Base-10 `strtol` on a token, returning the parsed value and the
remainder that the out-parameter `endptr` designates: leading whitespace
is skipped, one optional sign is consumed, then a maximal digit run; if
no digit is consumed the value is 0 and `endptr` is the original string.
Saturation at `LONG_MAX` is not modelled; every theorem below keeps the
consumed value strictly below `2 ^ 63`, where `strtol` is exact. -/
def strtol (l : List Char) : Int × List Char :=
  let l1 := l.dropWhile Char.isWhitespace
  match l1 with
  | '+' :: r =>
    let ds := r.takeWhile Char.isDigit
    if ds = [] then (0, l) else ((digitsVal ds : Int), r.dropWhile Char.isDigit)
  | '-' :: r =>
    let ds := r.takeWhile Char.isDigit
    if ds = [] then (0, l) else (-(digitsVal ds : Int), r.dropWhile Char.isDigit)
  | _ =>
    let ds := l1.takeWhile Char.isDigit
    if ds = [] then (0, l) else ((digitsVal ds : Int), l1.dropWhile Char.isDigit)

/-- Conversion of a C `long` value to `size_t` (reduction modulo `2^64`,
as on the LP64 platform the program targets). -/
def toSizeT (v : Int) : Nat := (v % (2 ^ 64 : Int)).toNat

/-- Conversion of a C `long` value to `int`: two's-complement wrap into
`[-2^31, 2^31)`, the behaviour of every mainstream LP64 compiler. -/
def toInt32 (v : Int) : Int := (v + 2 ^ 31) % 2 ^ 32 - 2 ^ 31

/- ## Helpers from led.c -/

/-- `string_reverse`: the two-pointer in-place swap loop of led.c computes
exactly the reversal of the character sequence. -/
def string_reverse (s : List Char) : List Char := s.reverse

/-- The `while (num) { rev = rev*10 + num%10; num /= 10; }` loop of
`decimal_reverse`, on non-negative values; `fuel` bounds the iteration
count (the loop runs once per digit, so `fuel ≥ num` is always enough). -/
def drevGo (fuel num rev : Nat) : Nat :=
  match fuel with
  | 0 => rev
  | f + 1 => if num = 0 then rev else drevGo f (num / 10) (rev * 10 + num % 10)

/-- `decimal_reverse`: reverse a decimal number by value.  C `%` and `/`
truncate toward zero, so for `num < 0` every remainder and quotient is
the negation of the one for `-num`; the loop therefore returns the
negated reversal of `|num|`, which is how the negative case is written. -/
def decimal_reverse (num : Int) : Int :=
  if num < 0 then -(drevGo num.natAbs num.natAbs 0 : Int)
  else (drevGo num.natAbs num.natAbs 0 : Int)

/-- `decimal_remove_last_digit`: C integer division truncates toward zero,
which is `Int.tdiv`. -/
def decimal_remove_last_digit (num : Int) : Int := num.tdiv 10

/- ## The command parser (first half of `cmd_process`) -/

/-- The parsed command: target line (`size_t cmd_line`, already resolved
against the current line), the command-id string `cmd_id` points to, and
the repeat count (`int cmd_count`, already normalised). -/
structure Cmd where
  line : Nat
  id : List Char
  count : Int
deriving DecidableEq, Repr

/-- The token-decomposition part of `cmd_process`:
`cmd_line = strtol(cmd, &cmd_temp, 10)` with zero replaced by the current
line; then `strcat(cmd_temp, "1"); string_reverse(cmd_temp);`
`cmd_count = strtol(cmd_temp, &cmd_id, 10)` followed by
`decimal_reverse`, `decimal_remove_last_digit`, and zero-to-one
normalisation. -/
def parseCmd (tok : List Char) (cur : Nat) : Cmd :=
  let s1 := strtol tok
  let line0 := toSizeT s1.1
  let line := if line0 = 0 then cur else line0
  let s2 := strtol (string_reverse (s1.2 ++ ['1']))
  let count0 := decimal_remove_last_digit (decimal_reverse (toInt32 s2.1))
  { line := line, id := s2.2, count := if count0 = 0 then 1 else count0 }

/- ## The line buffer and the dispatcher (second half of `cmd_process`) -/

/-- The global `buffer` of led.c: the allocated line cells (`line_ptr`,
one string per cell, `calloc` makes them initially empty), the count of
cells filled from the file (`last_line`) and the cursor
(`current_line`).  Trailing newlines kept by `getline` are immaterial to
the claims and are not modelled inside the strings. -/
structure LedState where
  lines : List String
  lastLine : Nat
  currentLine : Nat
deriving DecidableEq, Repr

/-- Observable output of one command: the `printf` / `fprintf` calls of
`cmd_process`, by channel and shape. -/
inductive Ev where
  | printLine (idx : Nat) (content : String)
  | printEOF
  | promptFile
  | printLineNo (n : Nat)
  | printInvalidLine
  | printSetLine (n : Nat)
  | printWriting
  | writeOut (s : String)
  | printExiting
  | errInvalid
deriving DecidableEq, Repr

/-- Result of one `cmd_process` call: the new buffer, the emitted output,
and the return value (`true` requests session exit). -/
structure DispatchResult where
  st : LedState
  evs : List Ev
  exit : Bool
deriving DecidableEq, Repr

/-- `buffer_load`: sets `current_line = 1`, then overwrites one cell per
input record via `getline` (cells past the record count keep their old
content), and records the count in `last_line`. -/
def buffer_load (recs : List String) (st : LedState) : LedState :=
  { st with
    currentLine := 1
    lines := recs ++ st.lines.drop recs.length
    lastLine := recs.length }

/-- `buffer_setup`: allocates `buffer_length` empty cells; the remaining
globals keep their C zero-initialisation, and a backing file (when one
was named on the command line) is loaded. -/
def buffer_setup (bufLen : Nat) (file : Option (List String)) : LedState :=
  let st : LedState := { lines := List.replicate bufLen "", lastLine := 0, currentLine := 0 }
  match file with
  | none => st
  | some recs => buffer_load recs st

/-- The `while (cmd_count--)` loop of the `r` case: print the current
target index together with the line at `current_line - 1`, then advance
the target and store it as the new current line. -/
def readLoop (n cl : Nat) (st : LedState) : LedState × List Ev :=
  match n with
  | 0 => (st, [])
  | m + 1 =>
    let ev := Ev.printLine cl (st.lines.getD (st.currentLine - 1) "")
    let st1 := { st with currentLine := cl + 1 }
    let p := readLoop m (cl + 1) st1
    (p.1, ev :: p.2)

/-- The `switch (*cmd_id)` of `cmd_process`.  The `f` case's console
dialogue and file opening are external I/O; the records of the file it
ends up loading are supplied as `fileRecs`.  A negative count would make
the C `while (cmd_count--)` wrap through `int` (undefined behaviour);
the model runs the loop `count.toNat` times, and every theorem below
only exercises non-negative counts. -/
def execCmd (i : Char) (line : Nat) (count : Int) (fileRecs : List String)
    (st : LedState) : DispatchResult :=
  if i = 'f' then
    ⟨buffer_load fileRecs st, [Ev.promptFile], false⟩
  else if i = 'v' then
    ⟨st, (List.range st.lastLine).map (fun k => Ev.printLine (k + 1) (st.lines.getD k "")), false⟩
  else if i = 'r' then
    if line ≤ st.lastLine then
      let p := readLoop count.toNat line st
      ⟨p.1, p.2, false⟩
    else ⟨st, [Ev.printEOF], false⟩
  else if i = 'l' then ⟨st, [Ev.printLineNo st.currentLine], false⟩
  else if i = 's' then
    if line < 1 then ⟨st, [Ev.printInvalidLine], false⟩
    else if st.lastLine < line then ⟨st, [Ev.printEOF], false⟩
    else ⟨{ st with currentLine := line }, [Ev.printSetLine line], false⟩
  else if i = 'i' then ⟨st, [], false⟩
  else if i = 'a' then ⟨st, [], false⟩
  else if i = 'c' then ⟨st, [], false⟩
  else if i = 'w' then
    ⟨st, Ev.printWriting :: (List.range st.lastLine).map (fun k => Ev.writeOut (st.lines.getD k "")), false⟩
  else if i = 'q' then ⟨st, [Ev.printExiting], true⟩
  else ⟨st, [Ev.errInvalid], false⟩

/-- The back half of `cmd_process`: the `strlen(cmd_id) != 1` check
(report an invalid command) followed by the switch. -/
def dispatchCmd (c : Cmd) (fileRecs : List String) (st : LedState) : DispatchResult :=
  match c.id with
  | [i] => execCmd i c.line c.count fileRecs st
  | _ => ⟨st, [Ev.errInvalid], false⟩

/-- One full `cmd_process` call on an already-read token. -/
def cmd_process (tok : List Char) (fileRecs : List String) (st : LedState) : DispatchResult :=
  dispatchCmd (parseCmd tok st.currentLine) fileRecs st

/- ## The reference parser of spec §4.1 (spec-side definition, kept for
     the refinement claim only) -/

namespace Page

/-- The cursor position of `Page` (`cursor.pos.x` / `cursor.pos.y`,
both `size_t`). -/
structure Cursor where
  x : Nat
  y : Nat
deriving DecidableEq, Repr

/-- `size_t += int`: the displacement is converted to `size_t` and added
modulo `2^64`. -/
def sizeAdd (a : Nat) (d : Int) : Nat := toSizeT ((a : Int) + d)

/-- `Page::file_read` as a function of the records in the file: one line
is appended per record, and a buffer that received no records gets a
single empty line (`lines.emplace_back()`). -/
def file_read (recs : List String) : List String :=
  if recs.length = 0 then [""] else recs

/-- `Page::move_cursor`: each coordinate is moved by its displacement,
except that a negative displacement is only applied when the coordinate
is at least `(size_t)(-x)`. -/
def move_cursor (cur : Cursor) (x y : Int) : Cursor :=
  let cx := if x < 0 then (if (-x).toNat ≤ cur.x then sizeAdd cur.x x else cur.x)
            else sizeAdd cur.x x
  let cy := if y < 0 then (if (-y).toNat ≤ cur.y then sizeAdd cur.y y else cur.y)
            else sizeAdd cur.y y
  ⟨cx, cy⟩

end Page

/- ## Helper lemmas: digits and digit runs -/

theorem dval_le_nine (c : Char) : dval c ≤ 9 := by
  unfold dval
  split <;> omega

theorem digitChar_isDigit (d : Nat) : (digitChar d).isDigit = true := by
  unfold digitChar
  split <;> decide

theorem dval_digitChar (d : Nat) (h : d < 10) : dval (digitChar d) = d := by
  interval_cases d <;> decide

theorem foldl_digitsVal (l : List Char) : ∀ a : Nat,
    List.foldl (fun x c => x * 10 + dval c) a l = a * 10 ^ l.length + digitsVal l := by
  induction l with
  | nil => intro a; simp [digitsVal]
  | cons c t ih =>
    intro a
    have hd : digitsVal (c :: t) = dval c * 10 ^ t.length + digitsVal t := by
      show List.foldl (fun x ch => x * 10 + dval ch) 0 (c :: t) = _
      simp only [List.foldl_cons]
      rw [ih (0 * 10 + dval c)]
      ring
    simp only [List.foldl_cons, List.length_cons]
    rw [ih (a * 10 + dval c), hd]
    ring

theorem digitsVal_cons (c : Char) (l : List Char) :
    digitsVal (c :: l) = dval c * 10 ^ l.length + digitsVal l := by
  unfold digitsVal
  simp only [List.foldl_cons]
  have := foldl_digitsVal l (0 * 10 + dval c)
  simpa using this

theorem digitsVal_append (l1 l2 : List Char) :
    digitsVal (l1 ++ l2) = digitsVal l1 * 10 ^ l2.length + digitsVal l2 := by
  unfold digitsVal
  rw [List.foldl_append]
  have := foldl_digitsVal l2 (List.foldl (fun x c => x * 10 + dval c) 0 l1)
  simpa [digitsVal] using this

theorem digitsVal_lt (l : List Char) : digitsVal l < 10 ^ l.length := by
  induction l with
  | nil => simp [digitsVal]
  | cons c t ih =>
    rw [digitsVal_cons]
    have hc := dval_le_nine c
    have : dval c * 10 ^ t.length ≤ 9 * 10 ^ t.length :=
      Nat.mul_le_mul_right _ hc
    simp only [List.length_cons, pow_succ]
    omega

theorem digitsVal_one_cons_ge (l : List Char) : 10 ^ l.length ≤ digitsVal ('1' :: l) := by
  rw [digitsVal_cons]
  have h : dval '1' = 1 := by decide
  rw [h]
  omega

/- ## Helper lemmas: characters -/

theorem isDigit_not_ws (c : Char) (h : c.isDigit = true) : c.isWhitespace = false := by
  by_contra hw
  rw [Bool.not_eq_false] at hw
  simp only [Char.isWhitespace, Bool.or_eq_true, decide_eq_true_eq] at hw
  rcases hw with ((h1 | h1) | h1) | h1 <;> subst h1 <;> simp at h

theorem isDigit_ne_plus (c : Char) (h : c.isDigit = true) : c ≠ '+' := by
  rintro rfl
  simp at h

theorem isDigit_ne_minus (c : Char) (h : c.isDigit = true) : c ≠ '-' := by
  rintro rfl
  simp at h

/- ## Helper lemmas: takeWhile and dropWhile -/

theorem takeWhile_append_run {α : Type} (p : α → Bool) (l1 l2 : List α)
    (h1 : ∀ c ∈ l1, p c = true) (h2 : ∀ c, l2.head? = some c → p c = false) :
    (l1 ++ l2).takeWhile p = l1 := by
  induction l1 with
  | nil =>
    cases l2 with
    | nil => simp
    | cons b t =>
      have hb := h2 b (by simp)
      simp [List.takeWhile_cons, hb]
  | cons a t ih =>
    have ha := h1 a (by simp)
    simp only [List.cons_append, List.takeWhile_cons, ha]
    simp only [if_true]
    rw [ih (fun c hc => h1 c (by simp [hc]))]

theorem dropWhile_append_run {α : Type} (p : α → Bool) (l1 l2 : List α)
    (h1 : ∀ c ∈ l1, p c = true) (h2 : ∀ c, l2.head? = some c → p c = false) :
    (l1 ++ l2).dropWhile p = l2 := by
  induction l1 with
  | nil =>
    cases l2 with
    | nil => simp
    | cons b t =>
      have hb := h2 b (by simp)
      simp [List.dropWhile_cons, hb]
  | cons a t ih =>
    have ha := h1 a (by simp)
    simp only [List.cons_append, List.dropWhile_cons, ha]
    simp only [if_true]
    exact ih (fun c hc => h1 c (by simp [hc]))

/- ## Helper lemmas: strtol -/

theorem strtol_digit_run (ds rest : List Char) (hne : ds ≠ [])
    (hd : ∀ c ∈ ds, c.isDigit = true)
    (hr : ∀ c, rest.head? = some c → c.isDigit = false) :
    strtol (ds ++ rest) = ((digitsVal ds : Int), rest) := by
  cases ds with
  | nil => exact absurd rfl hne
  | cons d t =>
    have hdd : d.isDigit = true := hd d (by simp)
    have hdrop : (d :: t ++ rest).dropWhile Char.isWhitespace = d :: (t ++ rest) := by
      rw [List.cons_append, List.dropWhile_cons, isDigit_not_ws d hdd]
      simp
    unfold strtol
    rw [hdrop]
    have htw : (d :: (t ++ rest)).takeWhile Char.isDigit = d :: t := by
      have := takeWhile_append_run Char.isDigit (d :: t) rest hd hr
      simpa using this
    have hdw : (d :: (t ++ rest)).dropWhile Char.isDigit = rest := by
      have := dropWhile_append_run Char.isDigit (d :: t) rest hd hr
      simpa using this
    dsimp only
    split
    · rename_i r heq
      exfalso
      have : d = '+' := by injection heq
      exact isDigit_ne_plus d hdd this
    · rename_i r heq
      exfalso
      have : d = '-' := by injection heq
      exact isDigit_ne_minus d hdd this
    · simp only [htw, hdw]
      rw [if_neg (by simp)]

theorem strtol_none (l : List Char)
    (h : ∀ c, l.head? = some c →
      c.isDigit = false ∧ c.isWhitespace = false ∧ c ≠ '+' ∧ c ≠ '-') :
    strtol l = (0, l) := by
  cases l with
  | nil => rfl
  | cons a t =>
    obtain ⟨hd, hw, hp, hm⟩ := h a (by simp)
    have hdrop : (a :: t).dropWhile Char.isWhitespace = a :: t := by
      rw [List.dropWhile_cons, hw]
      simp
    unfold strtol
    rw [hdrop]
    dsimp only
    split
    · rename_i r heq
      exfalso
      exact hp (by injection heq)
    · rename_i r heq
      exfalso
      exact hm (by injection heq)
    · have htw : (a :: t).takeWhile Char.isDigit = [] := by
        rw [List.takeWhile_cons, hd]
        simp
      simp [htw]

/- ## Helper lemmas: integer conversions -/

theorem toSizeT_of_small (n : Nat) (h : n < 2 ^ 64) : toSizeT (n : Int) = n := by
  unfold toSizeT
  omega

theorem toInt32_of_small (n : Nat) (h : n < 2 ^ 31) : toInt32 (n : Int) = n := by
  unfold toInt32
  omega

/- ## Helper lemmas: decimal_reverse -/

theorem drevGo_num_zero (fuel acc : Nat) : drevGo fuel 0 acc = acc := by
  cases fuel <;> simp [drevGo]

theorem drevGo_digit_run (l : List Char) : ∀ fuel acc : Nat,
    digitsVal ('1' :: l) ≤ fuel →
    drevGo fuel (digitsVal ('1' :: l)) acc =
      acc * 10 ^ (l.length + 1) + digitsVal (l.reverse ++ ['1']) := by
  induction l using List.reverseRecOn with
  | nil =>
    intro fuel acc hf
    have h1 : digitsVal ['1'] = 1 := by decide
    rw [h1] at hf ⊢
    cases fuel with
    | zero => omega
    | succ f =>
      show drevGo (f + 1) 1 acc = _
      unfold drevGo
      rw [if_neg (by omega)]
      rw [drevGo_num_zero]
      have h2 : digitsVal (List.reverse ([] : List Char) ++ ['1']) = 1 := by decide
      rw [h2]
      norm_num
  | append_singleton l' d ih =>
    intro fuel acc hf
    have hsplit : ('1' :: (l' ++ [d])) = ('1' :: l') ++ [d] := by simp
    have hval : digitsVal ('1' :: (l' ++ [d])) = digitsVal ('1' :: l') * 10 + dval d := by
      rw [hsplit, digitsVal_append]
      have : digitsVal [d] = dval d := by
        rw [show [d] = d :: ([] : List Char) from rfl, digitsVal_cons]
        simp [digitsVal]
      simp [this]
    have hme : 1 ≤ digitsVal ('1' :: l') := by
      have := digitsVal_one_cons_ge l'
      have h10 : 1 ≤ 10 ^ l'.length := Nat.one_le_pow _ _ (by omega)
      omega
    have hd9 := dval_le_nine d
    have hnum_ge : 10 ≤ digitsVal ('1' :: (l' ++ [d])) := by
      rw [hval]; omega
    cases fuel with
    | zero => omega
    | succ f =>
      show drevGo (f + 1) (digitsVal ('1' :: (l' ++ [d]))) acc = _
      unfold drevGo
      rw [if_neg (by omega)]
      have hmod : digitsVal ('1' :: (l' ++ [d])) % 10 = dval d := by
        rw [hval]
        omega
      have hdiv : digitsVal ('1' :: (l' ++ [d])) / 10 = digitsVal ('1' :: l') := by
        rw [hval]
        omega
      rw [hmod, hdiv]
      have hfle : digitsVal ('1' :: l') ≤ f := by
        rw [hval] at hf
        omega
      rw [ih f (acc * 10 + dval d) hfle]
      have hrev : (l' ++ [d]).reverse = d :: l'.reverse := by simp
      rw [hrev]
      have hlen : (d :: (l'.reverse ++ ['1'])) = d :: l'.reverse ++ ['1'] := by simp
      rw [show d :: l'.reverse ++ ['1'] = d :: (l'.reverse ++ ['1']) from rfl]
      rw [digitsVal_cons]
      have hlen2 : (l'.reverse ++ ['1']).length = l'.length + 1 := by simp
      rw [hlen2]
      have hlen3 : (l' ++ [d]).length = l'.length + 1 := by simp
      rw [hlen3]
      ring

theorem decimal_reverse_digit_run (l : List Char) :
    decimal_reverse ((digitsVal ('1' :: l) : Nat) : Int) =
      ((digitsVal (l.reverse ++ ['1']) : Nat) : Int) := by
  unfold decimal_reverse
  rw [if_neg (by omega)]
  rw [Int.natAbs_ofNat]
  rw [drevGo_digit_run l (digitsVal ('1' :: l)) 0 (le_refl _)]
  simp

theorem count_chain (l : List Char) (hlen : l.length ≤ 9) :
    decimal_remove_last_digit (decimal_reverse (toInt32 (digitsVal ('1' :: l)))) =
      ((digitsVal l.reverse : Nat) : Int) := by
  have hlt : digitsVal ('1' :: l) < 2 ^ 31 := by
    have hc : digitsVal ('1' :: l) = 10 ^ l.length + digitsVal l := by
      rw [digitsVal_cons]
      have h1 : dval '1' = 1 := by decide
      rw [h1]
      omega
    have h2 : digitsVal l < 10 ^ l.length := digitsVal_lt l
    have h3 : (10 : Nat) ^ l.length ≤ 10 ^ 9 := Nat.pow_le_pow_right (by omega) hlen
    have h4 : 2 * (10 : Nat) ^ 9 < 2 ^ 31 := by norm_num
    omega
  rw [toInt32_of_small _ hlt]
  rw [decimal_reverse_digit_run]
  have hval : digitsVal (l.reverse ++ ['1']) = digitsVal l.reverse * 10 + 1 := by
    rw [digitsVal_append]
    have : digitsVal ['1'] = 1 := by decide
    simp [this]
  rw [hval]
  unfold decimal_remove_last_digit
  have htd : ((digitsVal l.reverse * 10 + 1 : Nat) : Int).tdiv 10 =
      (((digitsVal l.reverse * 10 + 1) / 10 : Nat) : Int) := rfl
  rw [htd]
  congr 1
  omega

/- ## Helper lemmas: natDigits -/

theorem natDigitsGo_spec (n : Nat) : ∀ fuel : Nat, 1 ≤ n → n ≤ fuel →
    (∀ c ∈ natDigitsGo fuel n, c.isDigit = true) ∧
    digitsVal (natDigitsGo fuel n) = n ∧ natDigitsGo fuel n ≠ [] := by
  induction n using Nat.strong_induction_on with
  | _ n ih =>
    intro fuel h1 h2
    cases fuel with
    | zero => omega
    | succ f =>
      show (∀ c ∈ natDigitsGo (f + 1) n, c.isDigit = true) ∧ _ ∧ _
      unfold natDigitsGo
      by_cases hn : n < 10
      · rw [if_pos hn]
        refine ⟨?_, ?_, by simp⟩
        · intro c hc
          simp only [List.mem_singleton] at hc
          subst hc
          exact digitChar_isDigit n
        · rw [show [digitChar n] = digitChar n :: ([] : List Char) from rfl, digitsVal_cons]
          simp [digitsVal, dval_digitChar n hn]
      · rw [if_neg hn]
        have hq1 : 1 ≤ n / 10 := by omega
        have hqlt : n / 10 < n := Nat.div_lt_self (by omega) (by omega)
        have hqf : n / 10 ≤ f := by omega
        obtain ⟨ihd, ihv, ihne⟩ := ih (n / 10) hqlt f hq1 hqf
        refine ⟨?_, ?_, by simp⟩
        · intro c hc
          rw [List.mem_append] at hc
          rcases hc with hc | hc
          · exact ihd c hc
          · simp only [List.mem_singleton] at hc
            subst hc
            exact digitChar_isDigit _
        · rw [digitsVal_append, ihv]
          have hdv : dval (digitChar (n % 10)) = n % 10 := dval_digitChar (n % 10) (by omega)
          have : digitsVal [digitChar (n % 10)] = n % 10 := by
            rw [show [digitChar (n % 10)] = digitChar (n % 10) :: ([] : List Char) from rfl,
              digitsVal_cons, hdv]
            simp [digitsVal]
          rw [this]
          simp only [List.length_singleton, pow_one]
          omega

theorem natDigits_digits (n : Nat) (h : 1 ≤ n) : ∀ c ∈ natDigits n, c.isDigit = true :=
  (natDigitsGo_spec n n h (le_refl n)).1

theorem natDigits_val (n : Nat) (h : 1 ≤ n) : digitsVal (natDigits n) = n :=
  (natDigitsGo_spec n n h (le_refl n)).2.1

theorem natDigits_ne_nil (n : Nat) (h : 1 ≤ n) : natDigits n ≠ [] :=
  (natDigitsGo_spec n n h (le_refl n)).2.2

theorem strtol_single_nondigit (ch : Char) (h : ch.isDigit = false) :
    strtol [ch] = (0, [ch]) := by
  by_cases hw : ch.isWhitespace
  · unfold strtol
    have hdrop : ([ch] : List Char).dropWhile Char.isWhitespace = [] := by
      rw [List.dropWhile_cons, hw]
      simp
    rw [hdrop]
    simp
  · by_cases hp : ch = '+'
    · subst hp; decide
    · by_cases hm : ch = '-'
      · subst hm; decide
      · exact strtol_none [ch] (by
          intro c hc
          simp only [List.head?_cons, Option.some.injEq] at hc
          subst hc
          exact ⟨h, Bool.not_eq_true _ ▸ hw, hp, hm⟩)

theorem parseCmd_nocount (a : Nat) (i : Char) (cur : Nat)
    (h1 : 1 ≤ a) (h2 : a < 2 ^ 63) (h3 : i.isDigit = false) :
    parseCmd (natDigits a ++ [i]) cur = ⟨a, [i], 1⟩ := by
  have hstrtol1 : strtol (natDigits a ++ [i]) = ((a : Int), [i]) := by
    have hrun := strtol_digit_run (natDigits a) [i]
      (natDigits_ne_nil a h1) (natDigits_digits a h1)
      (by intro c hc; simp only [List.head?_cons, Option.some.injEq] at hc; subst hc; exact h3)
    rw [natDigits_val a h1] at hrun
    exact hrun
  have hrev : string_reverse (([i] : List Char) ++ ['1']) = ['1'] ++ [i] := by
    unfold string_reverse
    simp
  have hstrtol2 : strtol ((['1'] : List Char) ++ [i]) = ((digitsVal ['1'] : Int), [i]) :=
    strtol_digit_run ['1'] [i] (by simp) (by intro c hc; simp at hc; subst hc; decide)
      (by intro c hc; simp only [List.head?_cons, Option.some.injEq] at hc; subst hc; exact h3)
  have hchain := count_chain ([] : List Char) (by simp)
  have h1val : digitsVal ['1'] = digitsVal ('1' :: ([] : List Char)) := rfl
  unfold parseCmd
  dsimp only
  rw [hstrtol1]
  dsimp only
  rw [hrev, hstrtol2]
  dsimp only
  rw [h1val, hchain, toSizeT_of_small a (by omega)]
  rw [if_neg (show ¬ a = 0 by omega)]
  have hz : digitsVal (List.reverse ([] : List Char)) = 0 := by decide
  rw [hz]
  simp

theorem parseCmd_single (i : Char) (cur : Nat)
    (h3 : i.isDigit = false) :
    parseCmd [i] cur = ⟨cur, [i], 1⟩ := by
  have hstrtol1 : strtol [i] = (0, [i]) := strtol_single_nondigit i h3
  have hrev : string_reverse (([i] : List Char) ++ ['1']) = ['1'] ++ [i] := by
    unfold string_reverse
    simp
  have hstrtol2 : strtol ((['1'] : List Char) ++ [i]) = ((digitsVal ['1'] : Int), [i]) :=
    strtol_digit_run ['1'] [i] (by simp) (by intro c hc; simp at hc; subst hc; decide)
      (by intro c hc; simp only [List.head?_cons, Option.some.injEq] at hc; subst hc; exact h3)
  have hchain := count_chain ([] : List Char) (by simp)
  have h1val : digitsVal ['1'] = digitsVal ('1' :: ([] : List Char)) := rfl
  unfold parseCmd
  dsimp only
  rw [hstrtol1]
  dsimp only
  rw [hrev, hstrtol2]
  dsimp only
  rw [h1val, hchain]
  have hts : toSizeT 0 = 0 := rfl
  rw [hts]
  rw [if_pos rfl]
  have hz : digitsVal (List.reverse ([] : List Char)) = 0 := by decide
  rw [hz]
  simp

theorem parseCmd_line_pos (tok : List Char) (cur : Nat) (h : 1 ≤ cur) :
    1 ≤ (parseCmd tok cur).line := by
  unfold parseCmd
  dsimp only
  by_cases hz : toSizeT (strtol tok).1 = 0
  · rw [if_pos hz]; exact h
  · rw [if_neg hz]; omega

/- ## Helper lemmas: readLoop -/

theorem readLoop_state : ∀ (n cl : Nat) (st : LedState),
    (readLoop n cl st).1 = if n = 0 then st else { st with currentLine := cl + n } := by
  intro n
  induction n with
  | zero => intro cl st; simp [readLoop]
  | succ m ih =>
    intro cl st
    show (readLoop (m + 1) cl st).1 = _
    unfold readLoop
    dsimp only
    rw [ih (cl + 1) { st with currentLine := cl + 1 }]
    by_cases hm : m = 0
    · subst hm
      simp
    · rw [if_neg hm, if_neg (by omega)]
      have : cl + 1 + m = cl + (m + 1) := by omega
      simp [this]

theorem execCmd_f (line : Nat) (count : Int) (files : List String) (st : LedState) :
    execCmd 'f' line count files st = ⟨buffer_load files st, [Ev.promptFile], false⟩ := rfl

theorem execCmd_v (line : Nat) (count : Int) (files : List String) (st : LedState) :
    execCmd 'v' line count files st =
      ⟨st, (List.range st.lastLine).map (fun k => Ev.printLine (k + 1) (st.lines.getD k "")),
        false⟩ := rfl

theorem execCmd_r (line : Nat) (count : Int) (files : List String) (st : LedState) :
    execCmd 'r' line count files st =
      if line ≤ st.lastLine then
        ⟨(readLoop count.toNat line st).1, (readLoop count.toNat line st).2, false⟩
      else ⟨st, [Ev.printEOF], false⟩ := rfl

theorem execCmd_l (line : Nat) (count : Int) (files : List String) (st : LedState) :
    execCmd 'l' line count files st = ⟨st, [Ev.printLineNo st.currentLine], false⟩ := rfl

theorem execCmd_s (line : Nat) (count : Int) (files : List String) (st : LedState) :
    execCmd 's' line count files st =
      if line < 1 then ⟨st, [Ev.printInvalidLine], false⟩
      else if st.lastLine < line then ⟨st, [Ev.printEOF], false⟩
      else ⟨{ st with currentLine := line }, [Ev.printSetLine line], false⟩ := rfl

theorem execCmd_i (line : Nat) (count : Int) (files : List String) (st : LedState) :
    execCmd 'i' line count files st = ⟨st, [], false⟩ := rfl

theorem execCmd_a (line : Nat) (count : Int) (files : List String) (st : LedState) :
    execCmd 'a' line count files st = ⟨st, [], false⟩ := rfl

theorem execCmd_c (line : Nat) (count : Int) (files : List String) (st : LedState) :
    execCmd 'c' line count files st = ⟨st, [], false⟩ := rfl

theorem execCmd_w (line : Nat) (count : Int) (files : List String) (st : LedState) :
    execCmd 'w' line count files st =
      ⟨st, Ev.printWriting :: (List.range st.lastLine).map (fun k => Ev.writeOut (st.lines.getD k "")),
        false⟩ := rfl

theorem execCmd_q (line : Nat) (count : Int) (files : List String) (st : LedState) :
    execCmd 'q' line count files st = ⟨st, [Ev.printExiting], true⟩ := rfl

theorem execCmd_other (i : Char)
    (hne : i ≠ 'f' ∧ i ≠ 'v' ∧ i ≠ 'r' ∧ i ≠ 'l' ∧ i ≠ 's' ∧ i ≠ 'i' ∧ i ≠ 'a' ∧
      i ≠ 'c' ∧ i ≠ 'w' ∧ i ≠ 'q')
    (line : Nat) (count : Int) (files : List String) (st : LedState) :
    execCmd i line count files st = ⟨st, [Ev.errInvalid], false⟩ := by
  obtain ⟨h1, h2, h3, h4, h5, h6, h7, h8, h9, h10⟩ := hne
  unfold execCmd
  rw [if_neg h1, if_neg h2, if_neg h3, if_neg h4, if_neg h5, if_neg h6, if_neg h7,
    if_neg h8, if_neg h9, if_neg h10]

theorem parseCmd_digit_single (ch : Char) (cur : Nat) (hd : ch.isDigit = true) :
    (parseCmd [ch] cur).id = [] := by
  have hv1 : digitsVal [ch] = dval ch := by
    rw [show [ch] = ch :: ([] : List Char) from rfl, digitsVal_cons]
    simp [digitsVal]
  have hs1 : strtol [ch] = ((dval ch : Int), []) := by
    have hrun := strtol_digit_run [ch] [] (by simp)
      (by intro c hc; simp at hc; subst hc; exact hd)
      (by intro c hc; simp at hc)
    rw [hv1] at hrun
    simpa using hrun
  unfold parseCmd
  dsimp only
  rw [hs1]
  dsimp only
  have hs2 : strtol (string_reverse (([] : List Char) ++ ['1'])) = (1, ([] : List Char)) := by
    decide
  rw [hs2]

/- ## Claim C1 -/

/-- Claim C1: the claim states that insert, append and change are fully
functional and that dispatching "1i3" with three input texts inserts
them before line 1.  In led.c the `i`, `a` and `c` switch branches are
empty: dispatching "1i3" consumes no input text, changes no buffer
field, and emits nothing.  This theorem evaluates the code at the
claim's own example. -/
theorem c1_insert_noop :
    cmd_process ['1', 'i', '3'] [] ⟨["x", "y"], 2, 1⟩ =
      ⟨⟨["x", "y"], 2, 1⟩, [], false⟩ := by decide

/- ## Claim C5 -/

/-- Claim C5 counterexample: starting led with an empty backing file
leaves `last_line = 0`; the buffer is recorded as having no filled
lines, not as length 1. -/
theorem c5_counterexample :
    (buffer_setup 3 (some [])).lastLine = 0 ∧
    ¬ (buffer_setup 3 (some [])).lastLine = 1 := by decide

/-- Claim C5 (amended): led.c's `buffer_load` sets `current_line = 1` and
`last_line` to the record count — 0 for an empty file, so the led.c
buffer can be truly empty after a load; only the Page.cpp variant's
`file_read` pads an empty file to a single empty line. -/
theorem c5_load_behavior (recs : List String) (st : LedState) :
    (buffer_load recs st).lastLine = recs.length ∧
    (buffer_load recs st).currentLine = 1 ∧
    Page.file_read [] = [""] :=
  ⟨rfl, rfl, rfl⟩

/- ## Claim C9 -/

/-- Claim C9: executing the write command leaves every field of the line
buffer unchanged and does not request exit, for every buffer state,
resolved address and count. -/
theorem c9_write_frame (tok : List Char) (files : List String) (st : LedState)
    (h : (parseCmd tok st.currentLine).id = ['w']) :
    (cmd_process tok files st).st = st ∧ (cmd_process tok files st).exit = false := by
  unfold cmd_process dispatchCmd
  rw [h]
  dsimp only
  rw [execCmd_w]
  exact ⟨rfl, rfl⟩

/-- Claim C9 witness: the write frame theorem applied to the token "w" on
a concrete buffer. -/
theorem c9_witness :
    (cmd_process ['w'] [] ⟨["x"], 1, 1⟩).st = ⟨["x"], 1, 1⟩ ∧
    (cmd_process ['w'] [] ⟨["x"], 1, 1⟩).exit = false :=
  c9_write_frame ['w'] [] ⟨["x"], 1, 1⟩ (by decide)

/- ## Claim C10 -/

/-- Claim C10: `Page::move_cursor` never underflows the unsigned cursor
coordinates: for a negative displacement the coordinate is decreased
exactly when it is at least the displacement's magnitude, and left
unchanged otherwise — no wrap-around occurs.  The displacement bounds
are the C `int` range (excluding `INT_MIN`, whose negation would already
be undefined in the source), and the coordinates are `size_t` values. -/
theorem c10_no_underflow (cur : Page.Cursor) (x y : Int)
    (hx1 : -2 ^ 31 < x) (hx2 : x < 2 ^ 31) (hy1 : -2 ^ 31 < y) (hy2 : y < 2 ^ 31)
    (hcx : cur.x < 2 ^ 64) (hcy : cur.y < 2 ^ 64) :
    (x < 0 → (Page.move_cursor cur x y).x =
      if (-x).toNat ≤ cur.x then cur.x - (-x).toNat else cur.x) ∧
    (y < 0 → (Page.move_cursor cur x y).y =
      if (-y).toNat ≤ cur.y then cur.y - (-y).toNat else cur.y) := by
  constructor
  · intro hx
    unfold Page.move_cursor
    dsimp only
    rw [if_pos hx]
    by_cases hle : (-x).toNat ≤ cur.x
    · rw [if_pos hle, if_pos hle]
      unfold Page.sizeAdd toSizeT
      omega
    · rw [if_neg hle, if_neg hle]
  · intro hy
    unfold Page.move_cursor
    dsimp only
    rw [if_pos hy]
    by_cases hle : (-y).toNat ≤ cur.y
    · rw [if_pos hle, if_pos hle]
      unfold Page.sizeAdd toSizeT
      omega
    · rw [if_neg hle, if_neg hle]

/-- Claim C10 witness: moving the cursor at (5, 7) by (-3, -10) subtracts
on x and leaves y unchanged. -/
theorem c10_witness :
    (Page.move_cursor ⟨5, 7⟩ (-3) (-10)).x = 2 ∧
    (Page.move_cursor ⟨5, 7⟩ (-3) (-10)).y = 7 := by
  have h := c10_no_underflow ⟨5, 7⟩ (-3) (-10) (by decide) (by decide) (by decide) (by decide)
    (by decide) (by decide)
  constructor
  · rw [h.1 (by decide)]
    decide
  · rw [h.2 (by decide)]
    decide

/- ## Claim C2 -/

/-- Claim C2 counterexample: after loading the one-line file ["x"]
(cursor 1, one filled line), dispatching the read command "r" moves the
cursor to 2, above `last_line = 1`: the invariant
`1 ≤ current ≤ length` is not preserved by the read command. -/
theorem c2_counterexample :
    ¬ (1 ≤ (cmd_process ['r'] [] ⟨["x", "", ""], 1, 1⟩).st.currentLine ∧
       (cmd_process ['r'] [] ⟨["x", "", ""], 1, 1⟩).st.currentLine ≤
         (cmd_process ['r'] [] ⟨["x", "", ""], 1, 1⟩).st.lastLine) := by decide

/-- Claim C2 (amended): when the cursor is at least 1, every command
preserves `1 ≤ current`; and when additionally `current ≤ last_line`
holds, every command other than read and file preserves the full
invariant `1 ≤ current ≤ last_line`.  The read command can leave
`current = address + count`, exceeding `last_line`, and the file command
re-loads the buffer (with `last_line = 0` for an empty file). -/
theorem c2_lower_bound (tok : List Char) (files : List String) (st : LedState)
    (h : 1 ≤ st.currentLine) :
    1 ≤ (cmd_process tok files st).st.currentLine ∧
    (st.currentLine ≤ st.lastLine →
      (parseCmd tok st.currentLine).id ≠ ['r'] →
      (parseCmd tok st.currentLine).id ≠ ['f'] →
      (cmd_process tok files st).st.currentLine ≤ (cmd_process tok files st).st.lastLine) := by
  have hline := parseCmd_line_pos tok st.currentLine h
  unfold cmd_process dispatchCmd
  cases hid : (parseCmd tok st.currentLine).id with
  | nil => exact ⟨h, fun hu _ _ => hu⟩
  | cons i t =>
    cases t with
    | cons j t2 => exact ⟨h, fun hu _ _ => hu⟩
    | nil =>
      dsimp only
      by_cases hf : i = 'f'
      · subst hf
        rw [execCmd_f]
        refine ⟨le_refl 1, ?_⟩
        intro _ _ hne
        exact absurd rfl hne
      · by_cases hv : i = 'v'
        · subst hv
          rw [execCmd_v]
          exact ⟨h, fun hu _ _ => hu⟩
        · by_cases hr : i = 'r'
          · subst hr
            refine ⟨?_, ?_⟩
            · rw [execCmd_r]
              by_cases hle : (parseCmd tok st.currentLine).line ≤ st.lastLine
              · rw [if_pos hle]
                dsimp only
                rw [readLoop_state]
                by_cases hn : (parseCmd tok st.currentLine).count.toNat = 0
                · rw [if_pos hn]
                  exact h
                · rw [if_neg hn]
                  dsimp only
                  omega
              · rw [if_neg hle]
                exact h
            · intro _ hne _
              exact absurd rfl hne
          · by_cases hl : i = 'l'
            · subst hl
              rw [execCmd_l]
              exact ⟨h, fun hu _ _ => hu⟩
            · by_cases hs : i = 's'
              · subst hs
                rw [execCmd_s]
                by_cases hlt : (parseCmd tok st.currentLine).line < 1
                · rw [if_pos hlt]
                  exact ⟨h, fun hu _ _ => hu⟩
                · rw [if_neg hlt]
                  by_cases hgt : st.lastLine < (parseCmd tok st.currentLine).line
                  · rw [if_pos hgt]
                    exact ⟨h, fun hu _ _ => hu⟩
                  · rw [if_neg hgt]
                    refine ⟨by dsimp only; omega, ?_⟩
                    intro _ _ _
                    dsimp only
                    omega
              · by_cases hi : i = 'i'
                · subst hi
                  rw [execCmd_i]
                  exact ⟨h, fun hu _ _ => hu⟩
                · by_cases ha : i = 'a'
                  · subst ha
                    rw [execCmd_a]
                    exact ⟨h, fun hu _ _ => hu⟩
                  · by_cases hc : i = 'c'
                    · subst hc
                      rw [execCmd_c]
                      exact ⟨h, fun hu _ _ => hu⟩
                    · by_cases hw : i = 'w'
                      · subst hw
                        rw [execCmd_w]
                        exact ⟨h, fun hu _ _ => hu⟩
                      · by_cases hq : i = 'q'
                        · subst hq
                          rw [execCmd_q]
                          exact ⟨h, fun hu _ _ => hu⟩
                        · rw [execCmd_other i ⟨hf, hv, hr, hl, hs, hi, ha, hc, hw, hq⟩]
                          exact ⟨h, fun hu _ _ => hu⟩

/-- Claim C2 witness: the amended invariant theorem applied to the token
"l" on a concrete loaded buffer. -/
theorem c2_witness :
    1 ≤ (cmd_process ['l'] [] ⟨["x"], 1, 1⟩).st.currentLine ∧
    ((1 : Nat) ≤ 1 →
      (parseCmd ['l'] 1).id ≠ ['r'] →
      (parseCmd ['l'] 1).id ≠ ['f'] →
      (cmd_process ['l'] [] ⟨["x"], 1, 1⟩).st.currentLine ≤
        (cmd_process ['l'] [] ⟨["x"], 1, 1⟩).st.lastLine) :=
  c2_lower_bound ['l'] [] ⟨["x"], 1, 1⟩ (by decide)

/- ## Claim C3 -/

/-- Claim C6 counterexample: the token "0s" carries the explicit address
digit "0", yet the command succeeds: with cursor 2 it reports
"Set Line: 2" (the address was substituted with the current line), and
is not an out-of-range failure. -/
theorem c6_counterexample :
    cmd_process ['0', 's'] [] ⟨["x", "y"], 2, 2⟩ =
      ⟨⟨["x", "y"], 2, 2⟩, [Ev.printSetLine 2], false⟩ := by decide

/-- Claim C6 (amended): an address greater than `last_line` always fails
(an EOF report, no state change) for the address-checked commands r and
s, and is never clamped; but an explicit address of 0 is substituted
with the current line — the token "0s" behaves exactly like "s". -/
theorem c6_out_of_range (st st2 : LedState) (files files2 : List String) (a : Nat)
    (hgt : st.lastLine < a) (hlt : a < 2 ^ 63) :
    cmd_process (natDigits a ++ ['s']) files st = ⟨st, [Ev.printEOF], false⟩ ∧
    cmd_process (natDigits a ++ ['r']) files st = ⟨st, [Ev.printEOF], false⟩ ∧
    cmd_process ['0', 's'] files2 st2 = cmd_process ['s'] files2 st2 := by
  have ha : 1 ≤ a := by omega
  refine ⟨?_, ?_, ?_⟩
  · have hp := parseCmd_nocount a 's' st.currentLine ha hlt (by decide)
    unfold cmd_process dispatchCmd
    rw [hp]
    dsimp only
    rw [execCmd_s]
    rw [if_neg (show ¬ a < 1 by omega), if_pos hgt]
  · have hp := parseCmd_nocount a 'r' st.currentLine ha hlt (by decide)
    unfold cmd_process dispatchCmd
    rw [hp]
    dsimp only
    rw [execCmd_r]
    rw [if_neg (show ¬ a ≤ st.lastLine by omega)]
  · have hs1 : strtol ['0', 's'] = (0, ['s']) := by
      have hrun := strtol_digit_run ['0'] ['s'] (by simp)
        (by intro c hc; simp at hc; subst hc; decide)
        (by intro c hc; simp at hc; subst hc; decide)
      have h00 : ((digitsVal ['0'] : Nat) : Int) = 0 := by decide
      rw [h00] at hrun
      simpa using hrun
    have hs2 : strtol ['s'] = (0, ['s']) := strtol_single_nondigit 's' (by decide)
    have hz : parseCmd ['0', 's'] st2.currentLine = parseCmd ['s'] st2.currentLine := by
      unfold parseCmd
      rw [hs1, hs2]
    unfold cmd_process
    rw [hz]

/-- Claim C6 witness: the out-of-range theorem applied to address 5 on a
one-line buffer, with the "0s"-equals-"s" conjunct at a concrete state. -/
theorem c6_witness :
    cmd_process (natDigits 5 ++ ['s']) [] ⟨["x"], 1, 1⟩ =
      ⟨⟨["x"], 1, 1⟩, [Ev.printEOF], false⟩ ∧
    cmd_process (natDigits 5 ++ ['r']) [] ⟨["x"], 1, 1⟩ =
      ⟨⟨["x"], 1, 1⟩, [Ev.printEOF], false⟩ ∧
    cmd_process ['0', 's'] [] ⟨["x", "y"], 2, 2⟩ = cmd_process ['s'] [] ⟨["x", "y"], 2, 2⟩ :=
  c6_out_of_range ⟨["x"], 1, 1⟩ ⟨["x", "y"], 2, 2⟩ [] [] 5 (by decide) (by decide)

/- ## Claim C7 -/

/-- Claim C7 counterexample: the identifier 'f' is not in the claimed set
{v, r, l, s, i, a, c, w, q}, yet led.c dispatches it as the file
command: it is not reported invalid, and it changes buffer state (here
it re-loads the buffer from a file containing "z"). -/
theorem c7_counterexample :
    cmd_process ['f'] ["z"] ⟨["x"], 1, 1⟩ = ⟨⟨["z"], 1, 1⟩, [Ev.promptFile], false⟩ ∧
    (cmd_process ['f'] ["z"] ⟨["x"], 1, 1⟩).st ≠ (⟨["x"], 1, 1⟩ : LedState) ∧
    (cmd_process ['f'] ["z"] ⟨["x"], 1, 1⟩).evs ≠ [Ev.errInvalid] := by decide

/-- Claim C7 (amended): the set of valid command identifiers is exactly
{f, v, r, l, s, i, a, c, w, q}: a one-character token whose character is
any other character is reported on the error channel as an invalid
command, changes no buffer state, and does not request exit. -/
theorem c7_identifier_set (ch : Char)
    (h : ch ∉ (['f', 'v', 'r', 'l', 's', 'i', 'a', 'c', 'w', 'q'] : List Char))
    (files : List String) (st : LedState) :
    cmd_process [ch] files st = ⟨st, [Ev.errInvalid], false⟩ := by
  simp only [List.mem_cons, List.not_mem_nil, or_false, not_or] at h
  obtain ⟨hf, hv, hr, hl, hs, hi, ha, hc, hw, hq⟩ := h
  by_cases hd : ch.isDigit
  · have hid := parseCmd_digit_single ch st.currentLine hd
    unfold cmd_process dispatchCmd
    rw [hid]
  · have hp := parseCmd_single ch st.currentLine (by rwa [Bool.not_eq_true] at hd)
    unfold cmd_process dispatchCmd
    rw [hp]
    dsimp only
    exact execCmd_other ch ⟨hf, hv, hr, hl, hs, hi, ha, hc, hw, hq⟩ _ _ files st

/-- Claim C7 witness: the identifier-set theorem applied to the character
'x' on a concrete buffer. -/
theorem c7_witness :
    cmd_process ['x'] [] ⟨["x"], 1, 1⟩ = ⟨⟨["x"], 1, 1⟩, [Ev.errInvalid], false⟩ :=
  c7_identifier_set 'x' (by decide) [] ⟨["x"], 1, 1⟩

/- ## Claim C8 -/

